import Mathlib

/-!
Verification of the clause segmentation, classification, risk scoring and
summarization pipeline of a legal-contract analysis program.  The Python
source operates on strings; here every text is a `List Char` and each
function mirrors the corresponding Python function.  All characters above
code point 127 are removed by the normalizer before the other components
run, so the character classes below implement the ASCII fragment of the
Python regular-expression classes.
-/

namespace LegalContract

/-- ASCII test: the normalizer regex `[^\x00-\x7F]` matches exactly the
characters with code point at least 128. -/
def isAsciiChar (c : Char) : Bool := c.toNat ≤ 127

/-- Whitespace as matched by the regex class `\s` and stripped by
`str.strip()` on ASCII text. -/
def isSpaceChar (c : Char) : Bool :=
  c = ' ' || c = '\t' || c = '\n' || c = '\r' || c = '\x0b' || c = '\x0c' ||
  c = '\x1c' || c = '\x1d' || c = '\x1e' || c = '\x1f'

def isUpperAZ (c : Char) : Bool := 'A' ≤ c && c ≤ 'Z'

def isLowerAZ (c : Char) : Bool := 'a' ≤ c && c ≤ 'z'

def isDigitChar (c : Char) : Bool := '0' ≤ c && c ≤ '9'

/-- The class `[A-Za-z\s]` of the heading pattern. -/
def isAlphaSpace (c : Char) : Bool := isUpperAZ c || isLowerAZ c || isSpaceChar c

/-- Word characters of the regex class `\w` (ASCII fragment). -/
def isWordChar (c : Char) : Bool :=
  isUpperAZ c || isLowerAZ c || isDigitChar c || c = '_'

/-- Sentence-ending punctuation of the pattern `(?<=[.!?])\s+`. -/
def isPunct (c : Char) : Bool := c = '.' || c = '!' || c = '?'

/-- Python `str.lower()` on ASCII characters. -/
def lowerChar (c : Char) : Char :=
  if 'A' ≤ c && c ≤ 'Z' then Char.ofNat (c.toNat + 32) else c

def lowerList (l : List Char) : List Char := l.map lowerChar

/-- Embeds `clean_text`: `re.sub(r'[^\x00-\x7F]+', ' ', text)` as a single pass.
The boolean state records whether the previous character belonged to a
run of non-ASCII characters, so each maximal run emits one space. -/
def cleanCharsS : Bool → List Char → List Char
  | _, [] => []
  | inRun, c :: cs =>
    if isAsciiChar c then c :: cleanCharsS false cs
    else if inRun then cleanCharsS true cs
    else ' ' :: cleanCharsS true cs

def cleanChars (l : List Char) : List Char := cleanCharsS false l

/-- Prefix test used by the substring membership check. -/
def startsWith : List Char → List Char → Bool
  | _, [] => true
  | [], _ :: _ => false
  | c :: cs, d :: ds => c = d && startsWith cs ds

/-- Python `needle in hay` on strings: substring containment. -/
def containsSub : List Char → List Char → Bool
  | [], needle => needle.isEmpty
  | c :: cs, needle => startsWith (c :: cs) needle || containsSub cs needle

/-- Python `str.strip()` (ASCII whitespace). -/
def lstrip (l : List Char) : List Char := l.dropWhile isSpaceChar

def rstrip (l : List Char) : List Char := (l.reverse.dropWhile isSpaceChar).reverse

def strip (l : List Char) : List Char := rstrip (lstrip l)

/-- Re-attach a character to the first piece of a split result. -/
def consFirst (c : Char) : List (List Char) → List (List Char)
  | [] => [[c]]
  | p :: ps => (c :: p) :: ps

/-- Embeds `re.split(r'\n{2,}', text)` as a single pass.  In mode `true` the
scanner is inside a separator run of newlines; mode `false` scans the
current piece and opens a separator when two consecutive newlines occur. -/
def splitBlankS : Bool → List Char → List (List Char)
  | true, [] => [[]]
  | true, '\n' :: cs => splitBlankS true cs
  | true, c :: cs => consFirst c (splitBlankS false cs)
  | false, [] => [[]]
  | false, '\n' :: '\n' :: cs => [] :: splitBlankS true cs
  | false, c :: cs => consFirst c (splitBlankS false cs)

def splitBlank (l : List Char) : List (List Char) := splitBlankS false l

/-- First alternative of the heading pattern, `[A-Z][A-Za-z\s]{1,50}:`,
anchored at the current position; returns the match length.  The
character class excludes the colon, so the only candidate for the
greedy bounded repetition is the full run of class characters. -/
def alt1Match : List Char → Option Nat
  | [] => none
  | c :: cs =>
    if isUpperAZ c then
      let r := (cs.takeWhile isAlphaSpace).length
      if 1 ≤ r && r ≤ 50 && ((cs.drop r).head? = some ':') then some (r + 2)
      else none
    else none

/-- Second alternative, `Section\s+\d+\.?\d*\s*[:\-]?`, anchored at the
current position; all components consume disjoint character classes, so
greedy maximal munch needs no backtracking.  Returns the unconsumed
remainder when the pattern matches. -/
def alt2Rest (l : List Char) : Option (List Char) :=
  if l.take 7 = "Section".data then
    let a1 := l.drop 7
    if (a1.head?.map isSpaceChar).getD false then
      let a2 := a1.dropWhile isSpaceChar
      if (a2.head?.map isDigitChar).getD false then
        let a3 := a2.dropWhile isDigitChar
        let a4 := if a3.head? = some '.' then a3.tail else a3
        let a5 := a4.dropWhile isDigitChar
        let a6 := a5.dropWhile isSpaceChar
        let a7 := if a6.head? = some ':' || a6.head? = some '-' then a6.tail else a6
        some a7
      else none
    else none
  else none

/-- Match length of the second alternative. -/
def alt2Match (l : List Char) : Option Nat :=
  match alt2Rest l with
  | some r => some (l.length - r.length)
  | none => none

/-- The heading pattern `(?:[A-Z][A-Za-z\s]{1,50}:|Section\s+\d+\.?\d*\s*[:\-]?)`:
the regex engine prefers the first alternative. -/
def headingMatch (l : List Char) : Option Nat :=
  match alt1Match l with
  | some n => some n
  | none => alt2Match l

/-- Embeds `re.split(r'(?m)^(?:...)', p)`: scan the text, and at each line start
try the heading pattern; a match separates pieces and is discarded.  The
first argument counts the characters of the current match still to skip
(0 means scanning), the boolean records whether the position is at a line
start (start of text or preceded by a newline). -/
def splitHeadingS : Nat → Bool → List Char → List (List Char)
  | _ + 1, _, [] => [[]]
  | k + 1, _, c :: cs => splitHeadingS k (c == '\n') cs
  | 0, _, [] => [[]]
  | 0, st, c :: cs =>
    match (if st then headingMatch (c :: cs) else none) with
    | some n => [] :: splitHeadingS (n - 1) (c == '\n') cs
    | none => consFirst c (splitHeadingS 0 (c == '\n') cs)

def splitHeading (l : List Char) : List (List Char) := splitHeadingS 0 true l

/-- Embeds `re.split(r'(?<=[.!?])\s+', text)`: the first flag is true while the
scanner consumes a separating whitespace run, the second records whether
the previous character was sentence punctuation. -/
def sentSplitS : Bool → Bool → List Char → List (List Char)
  | true, _, [] => [[]]
  | true, _, c :: cs =>
    if isSpaceChar c then sentSplitS true false cs
    else consFirst c (sentSplitS false (isPunct c) cs)
  | false, _, [] => [[]]
  | false, p, c :: cs =>
    if p && isSpaceChar c then [] :: sentSplitS true false cs
    else consFirst c (sentSplitS false (isPunct c) cs)

def sentSplit (l : List Char) : List (List Char) := sentSplitS false false l

/-- Embeds `split_into_clauses`, blank-line and heading path only (the value of
the local variable `clauses` before the fallback test). -/
def splitIntoClausesMain (t : List Char) : List (List Char) :=
  let parts := ((splitBlank t).map strip).filter (fun p => p ≠ [])
  (parts.map (fun p => ((splitHeading p).map strip).filter (fun s => s ≠ []))).flatten

/-- Embeds `split_into_clauses`: fall back to sentence splitting when the
blank-line and heading path produced no block. -/
def splitIntoClauses (t : List Char) : List (List Char) :=
  if splitIntoClausesMain t = [] then sentSplit t else splitIntoClausesMain t

/-- Python `str.split()`: split on whitespace runs, discarding empty pieces.
The flag is true while inside a word, in which case the head of the
result is the remainder of the current word. -/
def pySplitWsS : Bool → List Char → List (List Char)
  | false, [] => []
  | true, [] => [[]]
  | false, c :: cs =>
    if isSpaceChar c then pySplitWsS false cs
    else consFirst c (pySplitWsS true cs)
  | true, c :: cs =>
    if isSpaceChar c then [] :: pySplitWsS false cs
    else consFirst c (pySplitWsS true cs)

def pySplitWs (l : List Char) : List (List Char) := pySplitWsS false l

/-- Embeds `re.findall(r'\w+', text)`: the maximal runs of word characters. -/
def pyFindallS : Bool → List Char → List (List Char)
  | false, [] => []
  | true, [] => [[]]
  | false, c :: cs =>
    if isWordChar c then consFirst c (pyFindallS true cs)
    else pyFindallS false cs
  | true, c :: cs =>
    if isWordChar c then consFirst c (pyFindallS true cs)
    else [] :: pyFindallS false cs

def pyFindall (l : List Char) : List (List Char) := pyFindallS false l

/-- The fixed list `KEY_CLAUSES` of the source. -/
def KEY_CLAUSES : List (List Char) :=
  ["confidentiality".data, "termination".data, "indemnity".data,
   "liability".data, "governing law".data, "jurisdiction".data,
   "payment".data, "intellectual property".data, "warranty".data,
   "data protection".data, "force majeure".data, "assignment".data,
   "non-compete".data, "dispute resolution".data, "privacy".data]

/-- The membership test of `find_key_clauses`:
`key in c or any(word in c for word in key.split())` on the lowered
clause text. -/
def clauseCond (key lc : List Char) : Bool :=
  containsSub lc key || (pySplitWs key).any (fun w => containsSub lc w)

/-- Embeds `find_key_clauses`: for each category, collect the enumerated clauses
whose lowered text satisfies the membership test; omit categories with no
match.  The Python dict (insertion ordered, keys distinct because the
fixed category list is) is an association list. -/
def findKeyClauses (clauses : List (List Char)) : List (List Char × List (Nat × List Char)) :=
  KEY_CLAUSES.filterMap (fun key =>
    let ms := clauses.enum.filter (fun ic => clauseCond key (lowerList ic.2))
    if ms = [] then none else some (key, ms))

/-- Space join, the Python `' '.join(...)`. -/
def joinSpace (ps : List (List Char)) : List Char := List.intercalate [' '] ps

/-- Stable insertion: an element moves past exactly the elements whose
score is strictly larger, so equal scores keep their original relative
order.  This is `sorted(..., key=lambda x: x[0], reverse=True)`, which
Python guarantees to be stable. -/
def insertDesc (x : Nat × List Char) : List (Nat × List Char) → List (Nat × List Char)
  | [] => [x]
  | y :: ys => if x.1 < y.1 then y :: insertDesc x ys else x :: y :: ys

def sortDesc : List (Nat × List Char) → List (Nat × List Char)
  | [] => []
  | x :: xs => insertDesc x (sortDesc xs)

/-- The word-frequency score of a sentence: the sum, over the words of
the sentence, of the number of occurrences of the word in the whole
document word list (`Counter` lookup with default 0). -/
def sentenceScores (text : List Char) : List (Nat × List Char) :=
  (sentSplit text).map (fun s =>
    (((pyFindall (lowerList s)).map (fun w => (pyFindall (lowerList text)).count w)).sum, s))

/-- Embeds `simple_summary`. -/
def simpleSummary (text : List Char) (numSentences : Nat) : List Char :=
  if (sentSplit text).length ≤ numSentences then joinSpace (sentSplit text)
  else joinSpace (((sortDesc (sentenceScores text)).take numSentences).map Prod.snd)

/-- Specification-side ordering for the summarizer: elements are tagged
with their original index and sorted by score descending, ties broken by
smaller original index first.  This renders the phrase
"highest-score sentences, ties broken stably by original relative
order, in descending-score order". -/
def lexInsert (x : Nat × Nat × List Char) :
    List (Nat × Nat × List Char) → List (Nat × Nat × List Char)
  | [] => [x]
  | y :: ys =>
    if x.2.1 < y.2.1 ∨ (x.2.1 = y.2.1 ∧ y.1 < x.1) then y :: lexInsert x ys
    else x :: y :: ys

def lexSort : List (Nat × Nat × List Char) → List (Nat × Nat × List Char)
  | [] => []
  | x :: xs => lexInsert x (lexSort xs)

/-- The fixed table `RISK_KEYWORDS` of the source, in dict insertion
order: high, medium, low. -/
def RISK_KEYWORDS : List (List Char × List (List Char)) :=
  [("high".data,
    ["no liability".data, "sole remedy".data, "exclusive remedy".data,
     "liquidated damages".data, "penalty".data, "irrevocable".data]),
   ("medium".data,
    ["indemnify".data, "third party".data, "limitations of liability".data,
     "cap on liability".data, "breach".data]),
   ("low".data,
    ["governing law".data, "jurisdiction".data, "notice".data,
     "term".data, "payment".data])]

/-- The weight the `analyze_risks` branches add for a tier. -/
def tierWeight (lvl : List Char) : Nat :=
  if lvl = "high".data then 3 else if lvl = "medium".data then 2 else 1

/-- The reason string of the `analyze_risks` branches. -/
def reasonStr (lvl kw : List Char) : List Char :=
  (if lvl = "high".data then "High-risk keyword: ".data
   else if lvl = "medium".data then "Medium-risk keyword: ".data
   else "Low-risk keyword: ".data) ++ ('"' :: kw) ++ ['"']

/-- One keyword check of the inner loop of `analyze_risks`. -/
def kwStep (ctLower lvl : List Char) (acc : Nat × List (List Char)) (kw : List Char) :
    Nat × List (List Char) :=
  if containsSub ctLower kw then (acc.1 + tierWeight lvl, acc.2 ++ [reasonStr lvl kw])
  else acc

/-- The keyword scan of `analyze_risks` over all tiers: score and the
reason list in append order. -/
def riskScan (ctLower : List Char) : Nat × List (List Char) :=
  RISK_KEYWORDS.foldl (fun acc p => p.2.foldl (kwStep ctLower p.1) acc) (0, [])

/-- A per-category entry of the risk report: `score`, `reasons`
(`list(set(...))`: the set of distinct reason strings, order
unspecified in Python and modelled here by `List.dedup`), and the
concatenated clause text. -/
structure RiskEntry where
  score : Nat
  reasons : List (List Char)
  text : List Char
deriving DecidableEq, Repr

/-- A value of the report dict of `analyze_risks`, which maps category
names to entries and the key `overall_risk_score` to an integer. -/
inductive ReportVal where
  | entry (e : RiskEntry)
  | overall (n : Nat)
deriving DecidableEq, Repr

def overallKey : List Char := "overall_risk_score".data

/-- One iteration of the loop of `analyze_risks`. -/
def analyzeStep (acc : List (List Char × ReportVal) × Nat)
    (p : List Char × List (Nat × List Char)) : List (List Char × ReportVal) × Nat :=
  let ctext := joinSpace (p.2.map Prod.snd)
  let sr := riskScan (lowerList ctext)
  (acc.1 ++ [(p.1, ReportVal.entry ⟨sr.1, sr.2.dedup, ctext⟩)], acc.2 + sr.1)

/-- Embeds `analyze_risks`: build the per-category report and add the
aggregated score under the extra key `overall_risk_score`. -/
def analyzeRisks (found : List (List Char × List (Nat × List Char))) :
    List (List Char × ReportVal) :=
  let r := found.foldl analyzeStep ([], 0)
  r.1 ++ [(overallKey, ReportVal.overall r.2)]

/-- Specification-side per-category score: the sum of the tier weights
over the fixed keywords, each counted once if it occurs as a substring
of the lowered concatenated text and not at all otherwise. -/
def keywordWeights : List (List Char × Nat) :=
  RISK_KEYWORDS.flatMap (fun p => p.2.map (fun kw => (kw, tierWeight p.1)))

def specCatScore (ctLower : List Char) : Nat :=
  (keywordWeights.map (fun q => if containsSub ctLower q.1 then q.2 else 0)).sum

/-- Embeds `hf_summarize`.  The external summarization pipeline is out of
scope, so its behaviour is a parameter: `ini` is the outcome of
constructing the pipeline (the assignment to the cached global handle),
`run` the outcome of invoking it, and an `Except.error` models a raised
exception.  The function returns the produced summary together with the
new value of the cached handle; every failure path falls back to
`simple_summary(text)` with its default of 5 sentences. -/
def hfSummarize (S : Type) (hfAvailable : Bool) (cached : Option S)
    (ini : Except Unit S) (run : S → Except Unit (List Char))
    (text : List Char) : List Char × Option S :=
  if hfAvailable = false then (simpleSummary text 5, cached)
  else
    match cached with
    | none =>
      match ini with
      | Except.error _ => (simpleSummary text 5, none)
      | Except.ok s =>
        match run s with
        | Except.ok out => (out, some s)
        | Except.error _ => (simpleSummary text 5, some s)
    | some s =>
      match run s with
      | Except.ok out => (out, some s)
      | Except.error _ => (simpleSummary text 5, some s)

/-- Relation `CleanRel s t` holds when `t` arises from `s` by replacing every
maximal run of non-ASCII characters with exactly one space: ASCII
characters are copied, and a run of non-ASCII characters may be
replaced only when it is non-empty and not followed by a further
non-ASCII character (maximality). -/
inductive CleanRel : List Char → List Char → Prop where
  | nil : CleanRel [] []
  | keep (c : Char) (s t : List Char) : isAsciiChar c = true → CleanRel s t →
      CleanRel (c :: s) (c :: t)
  | run (r s t : List Char) : r ≠ [] → (∀ c ∈ r, isAsciiChar c = false) →
      (∀ c, s.head? = some c → isAsciiChar c = true) → CleanRel s t →
      CleanRel (r ++ s) (' ' :: t)

/-- The scenario A input of the specification. -/
def scenarioA : List Char :=
  "Confidentiality: Both parties agree to keep terms secret.\n\nTermination: Either party may terminate with 30 days notice.".data

/-- Concrete text with four sentences used by the summarizer witness. -/
def summaryWitnessText : List Char := "one two. one three. four five. one one six.".data

/-! ### Order of blocks within the document

`SplitJoin ps l` states that `l` is exactly the pieces `ps` interleaved
with non-empty separators, the shape of any `re.split` result.
`InOrder bs t` states that the blocks `bs` occur inside `t` disjointly
and in order. -/

inductive SplitJoin : List (List Char) → List Char → Prop where
  | single (p : List Char) : SplitJoin [p] p
  | cons (p sep rest : List Char) (ps : List (List Char)) :
      sep ≠ [] → SplitJoin ps rest → SplitJoin (p :: ps) (p ++ sep ++ rest)

def InOrder : List (List Char) → List Char → Prop
  | [], _ => True
  | b :: bs, t => ∃ pre post, t = pre ++ b ++ post ∧ InOrder bs post

theorem inOrder_nil (t : List Char) : InOrder [] t := trivial

theorem inOrder_extend_left {bs : List (List Char)} {t : List Char} (pre : List Char)
    (h : InOrder bs t) : InOrder bs (pre ++ t) := by
  cases bs with
  | nil => trivial
  | cons b bs' =>
    obtain ⟨a, post, ht, hrest⟩ := h
    exact ⟨pre ++ a, post, by simp [ht], hrest⟩

theorem inOrder_append {xs ys : List (List Char)} {m post : List Char}
    (hx : InOrder xs m) (hy : InOrder ys post) :
    InOrder (xs ++ ys) (m ++ post) := by
  induction xs generalizing m with
  | nil => simpa using inOrder_extend_left m hy
  | cons x xs ih =>
    obtain ⟨a, b, hm, hrest⟩ := hx
    refine ⟨a, b ++ post, ?_, ih hrest⟩
    simp [hm]

theorem inOrder_of_sj {ps : List (List Char)} {l : List Char}
    (h : SplitJoin ps l) : InOrder ps l := by
  induction h with
  | single p => exact ⟨[], [], by simp, trivial⟩
  | cons p sep rest ps hsep hrest ih =>
    exact ⟨[], sep ++ rest, by simp, inOrder_extend_left sep ih⟩

theorem inOrder_flat (f : List Char → List (List Char)) :
    ∀ {ps : List (List Char)} {l : List Char}, InOrder ps l →
    (∀ p ∈ ps, InOrder (f p) p) → InOrder ((ps.map f).flatten) l := by
  intro ps
  induction ps with
  | nil => intro l _ _; trivial
  | cons p ps ih =>
    intro l h hf
    obtain ⟨pre, post, hl, hrest⟩ := h
    subst hl
    have h1 : InOrder (f p ++ (ps.map f).flatten) (p ++ post) :=
      inOrder_append (hf p (by simp)) (ih hrest (fun q hq => hf q (by simp [hq])))
    have h2 := inOrder_extend_left pre h1
    simpa using h2

theorem length_dropWhile_le (p : Char → Bool) (l : List Char) :
    (l.dropWhile p).length ≤ l.length :=
  (List.dropWhile_sublist _).length_le

theorem lstrip_decomp (l : List Char) : l = l.takeWhile isSpaceChar ++ lstrip l :=
  (List.takeWhile_append_dropWhile isSpaceChar l).symm

theorem rstrip_decomp (l : List Char) : ∃ b, l = rstrip l ++ b := by
  refine ⟨(l.reverse.takeWhile isSpaceChar).reverse, ?_⟩
  have h1 : l.reverse = l.reverse.takeWhile isSpaceChar ++ l.reverse.dropWhile isSpaceChar :=
    (List.takeWhile_append_dropWhile isSpaceChar l.reverse).symm
  have h2 := congrArg List.reverse h1
  rw [List.reverse_reverse, List.reverse_append] at h2
  exact h2

theorem strip_decomp (l : List Char) : ∃ a b, l = a ++ strip l ++ b := by
  obtain ⟨b, hb⟩ := rstrip_decomp (lstrip l)
  refine ⟨l.takeWhile isSpaceChar, b, ?_⟩
  have hs : strip l = rstrip (lstrip l) := rfl
  rw [List.append_assoc, hs, ← hb]
  exact lstrip_decomp l

theorem inOrder_strip_filter {ps : List (List Char)} {t : List Char} (h : InOrder ps t) :
    InOrder (((ps.map strip).filter (fun x => x ≠ []))) t := by
  induction ps generalizing t with
  | nil => trivial
  | cons p ps ih =>
    obtain ⟨pre, post, ht, hrest⟩ := h
    subst ht
    by_cases hp : strip p = []
    · have : (((p :: ps).map strip).filter (fun x => x ≠ [])) =
        ((ps.map strip).filter (fun x => x ≠ [])) := by simp [hp]
      rw [this, show pre ++ p ++ post = (pre ++ p) ++ post by simp]
      exact inOrder_extend_left (pre ++ p) (ih hrest)
    · have : (((p :: ps).map strip).filter (fun x => x ≠ [])) =
        strip p :: ((ps.map strip).filter (fun x => x ≠ [])) := by simp [hp]
      rw [this]
      obtain ⟨a, b, hpeq⟩ := strip_decomp p
      refine ⟨pre ++ a, b ++ post, ?_, inOrder_extend_left b (ih hrest)⟩
      conv_lhs => rw [hpeq]
      simp

theorem consFirst_sj {c : Char} {ps : List (List Char)} {l : List Char}
    (h : SplitJoin ps l) : SplitJoin (consFirst c ps) (c :: l) := by
  cases h with
  | single => exact SplitJoin.single (c :: l)
  | cons q sep rest qs hsep hrest =>
    have heq : (c :: q) ++ sep ++ rest = c :: (q ++ sep ++ rest) := by simp
    exact heq ▸ SplitJoin.cons (c :: q) sep rest qs hsep hrest

theorem splitBlankS_true_eq (l : List Char) :
    splitBlankS true l = splitBlankS false (l.dropWhile (fun c => c == '\n')) := by
  induction l with
  | nil => rfl
  | cons c cs ih =>
    by_cases hc : c = '\n'
    · subst hc
      rw [show splitBlankS true ('\n' :: cs) = splitBlankS true cs from rfl, ih]
      simp [List.dropWhile_cons]
    · have h2 : (c :: cs).dropWhile (fun c => c == '\n') = c :: cs := by
        simp [List.dropWhile_cons, hc]
      rw [h2]
      simp [splitBlankS, hc]

theorem splitBlank_sj : ∀ (n : Nat) (l : List Char), l.length ≤ n →
    SplitJoin (splitBlankS false l) l := by
  intro n
  induction n with
  | zero =>
    intro l hl
    have : l = [] := List.length_eq_zero.mp (Nat.le_zero.mp hl)
    subst this
    exact SplitJoin.single []
  | succ n ih =>
    intro l hl
    match l with
    | [] => exact SplitJoin.single []
    | [c] =>
      have : splitBlankS false [c] = [[c]] := by
        by_cases hc : c = '\n' <;> simp [splitBlankS, consFirst, hc]
      rw [this]; exact SplitJoin.single [c]
    | c :: d :: cs =>
      by_cases hc : c = '\n'
      · subst hc
        by_cases hd : d = '\n'
        · subst hd
          rw [show splitBlankS false ('\n' :: '\n' :: cs) = [] :: splitBlankS true cs from rfl,
            splitBlankS_true_eq]
          have hlen : (cs.dropWhile (fun c => c == '\n')).length ≤ n := by
            have := length_dropWhile_le (fun c => c == '\n') cs
            simp at hl; omega
          have hsj := SplitJoin.cons [] ('\n' :: '\n' :: cs.takeWhile (fun c => c == '\n'))
            (cs.dropWhile (fun c => c == '\n')) _ (by simp) (ih _ hlen)
          have heq : ([] : List Char) ++ ('\n' :: '\n' :: cs.takeWhile (fun c => c == '\n')) ++
              cs.dropWhile (fun c => c == '\n') = '\n' :: '\n' :: cs := by
            simp [List.takeWhile_append_dropWhile]
          exact heq ▸ hsj
        · have : splitBlankS false ('\n' :: d :: cs) =
              consFirst '\n' (splitBlankS false (d :: cs)) := by
            simp [splitBlankS, hd]
          rw [this]
          exact consFirst_sj (ih (d :: cs) (by simp at hl ⊢; omega))
      · have : splitBlankS false (c :: d :: cs) =
            consFirst c (splitBlankS false (d :: cs)) := by
          simp [splitBlankS, hc]
        rw [this]
        exact consFirst_sj (ih (d :: cs) (by simp at hl ⊢; omega))

theorem alt1Match_bounds {l : List Char} {n : Nat} (h : alt1Match l = some n) :
    0 < n ∧ n ≤ l.length := by
  match l with
  | [] => simp [alt1Match] at h
  | c :: cs =>
    simp only [alt1Match] at h
    split at h
    · split at h
      · rename_i hcond
        injection h with h
        simp only [Bool.and_eq_true, decide_eq_true_eq] at hcond
        obtain ⟨⟨h1, h2⟩, h3⟩ := hcond
        have hne : cs.drop (cs.takeWhile isAlphaSpace).length ≠ [] := by
          intro he; rw [he] at h3; simp at h3
        have hlt : (cs.takeWhile isAlphaSpace).length < cs.length := by
          by_contra hge
          push_neg at hge
          rw [List.drop_eq_nil_of_le hge] at hne
          exact hne rfl
        constructor <;> simp [← h] <;> omega
      · simp at h
    · simp at h

theorem length_ite_tail_le (cond : Prop) [Decidable cond] (x : List Char) :
    (if cond then x.tail else x).length ≤ x.length := by
  split
  · exact (List.length_tail _) ▸ Nat.sub_le _ _
  · exact Nat.le_refl _

theorem alt2Rest_bounds {l r : List Char} (h : alt2Rest l = some r) :
    r.length + 8 ≤ l.length := by
  simp only [alt2Rest] at h
  split at h
  · rename_i htake
    split at h
    · rename_i hsp
      split at h
      · injection h with h
        have h7 : 7 ≤ l.length := by
          have hlen := congrArg List.length htake
          simp at hlen
          omega
        cases ha1 : l.drop 7 with
        | nil => rw [ha1] at hsp; simp at hsp
        | cons c0 a1' =>
          have hc0 : isSpaceChar c0 = true := by
            rw [ha1] at hsp; simpa using hsp
          have hrle : r.length ≤ ((l.drop 7).dropWhile isSpaceChar).length := by
            rw [← h]
            refine le_trans (length_ite_tail_le _ _) ?_
            refine le_trans (length_dropWhile_le _ _) ?_
            refine le_trans (length_dropWhile_le _ _) ?_
            refine le_trans (length_ite_tail_le _ _) ?_
            exact length_dropWhile_le _ _
          have h2 : ((l.drop 7).dropWhile isSpaceChar).length ≤ a1'.length := by
            rw [ha1, List.dropWhile_cons, if_pos hc0]
            exact length_dropWhile_le _ _
          have ha1len : (l.drop 7).length = a1'.length + 1 := by rw [ha1]; simp
          rw [List.length_drop] at ha1len
          omega
      · simp at h
    · simp at h
  · simp at h

theorem alt2Match_bounds {l : List Char} {n : Nat} (h : alt2Match l = some n) :
    0 < n ∧ n ≤ l.length := by
  unfold alt2Match at h
  cases hr : alt2Rest l with
  | none => rw [hr] at h; simp at h
  | some r =>
    rw [hr] at h
    injection h with h
    have hb := alt2Rest_bounds hr
    omega

theorem headingMatch_bounds {l : List Char} {n : Nat} (h : headingMatch l = some n) :
    0 < n ∧ n ≤ l.length := by
  unfold headingMatch at h
  cases h1 : alt1Match l with
  | some m => rw [h1] at h; injection h with h; subst h; exact alt1Match_bounds h1
  | none => rw [h1] at h; exact alt2Match_bounds h

theorem splitHeadingS_skip : ∀ (k : Nat) (l : List Char) (b : Bool), k ≤ l.length →
    ∃ b', splitHeadingS k b l = splitHeadingS 0 b' (l.drop k) := by
  intro k
  induction k with
  | zero => intro l b _; exact ⟨b, by simp⟩
  | succ k ih =>
    intro l b hk
    match l with
    | [] => simp at hk
    | c :: cs =>
      have hk' : k ≤ cs.length := by simp at hk; omega
      obtain ⟨b', hb'⟩ := ih cs (c == '\n') hk'
      exact ⟨b', by rw [show splitHeadingS (k + 1) b (c :: cs) =
        splitHeadingS k (c == '\n') cs from rfl, hb', List.drop_succ_cons]⟩

theorem splitHeading_sj : ∀ (n : Nat) (l : List Char) (b : Bool), l.length ≤ n →
    SplitJoin (splitHeadingS 0 b l) l := by
  intro n
  induction n with
  | zero =>
    intro l b hl
    have : l = [] := List.length_eq_zero.mp (Nat.le_zero.mp hl)
    subst this
    exact SplitJoin.single []
  | succ n ih =>
    intro l b hl
    match l with
    | [] => exact SplitJoin.single []
    | c :: cs =>
      cases hm : (if b then headingMatch (c :: cs) else none) with
      | none =>
        have heq : splitHeadingS 0 b (c :: cs) =
            consFirst c (splitHeadingS 0 (c == '\n') cs) := by
          rw [show splitHeadingS 0 b (c :: cs) =
            (match (if b then headingMatch (c :: cs) else none) with
             | some n => [] :: splitHeadingS (n - 1) (c == '\n') cs
             | none => consFirst c (splitHeadingS 0 (c == '\n') cs)) from rfl, hm]
        rw [heq]
        exact consFirst_sj (ih cs _ (by simp at hl; omega))
      | some m =>
        have hb : b = true := by
          cases b
          · simp at hm
          · rfl
        subst hb
        rw [if_pos rfl] at hm
        obtain ⟨hm0, hmle⟩ := headingMatch_bounds hm
        have heq : splitHeadingS 0 true (c :: cs) =
            [] :: splitHeadingS (m - 1) (c == '\n') cs := by
          rw [show splitHeadingS 0 true (c :: cs) =
            (match headingMatch (c :: cs) with
             | some n => [] :: splitHeadingS (n - 1) (c == '\n') cs
             | none => consFirst c (splitHeadingS 0 (c == '\n') cs)) from rfl, hm]
        have hmle' : m - 1 ≤ cs.length := by simp at hmle; omega
        obtain ⟨b', hb'⟩ := splitHeadingS_skip (m - 1) cs (c == '\n') hmle'
        rw [heq, hb']
        have hlen : (cs.drop (m - 1)).length ≤ n := by
          rw [List.length_drop]
          simp at hl
          omega
        have hsj := SplitJoin.cons [] (c :: cs.take (m - 1)) (cs.drop (m - 1)) _
          (by simp) (ih _ b' hlen)
        have htext : ([] : List Char) ++ (c :: cs.take (m - 1)) ++ cs.drop (m - 1) =
            c :: cs := by simp
        exact htext ▸ hsj

theorem sentSplitS_true_eq : ∀ (l : List Char) (b : Bool),
    sentSplitS true b l = sentSplitS false false (l.dropWhile isSpaceChar) := by
  intro l
  induction l with
  | nil => intro b; rfl
  | cons c cs ih =>
    intro b
    by_cases hc : isSpaceChar c = true
    · rw [show sentSplitS true b (c :: cs) =
        (if isSpaceChar c then sentSplitS true false cs
         else consFirst c (sentSplitS false (isPunct c) cs)) from rfl,
        if_pos hc, ih, List.dropWhile_cons, if_pos hc]
    · rw [show sentSplitS true b (c :: cs) =
        (if isSpaceChar c then sentSplitS true false cs
         else consFirst c (sentSplitS false (isPunct c) cs)) from rfl,
        if_neg hc, List.dropWhile_cons, if_neg hc]
      rw [show sentSplitS false false (c :: cs) =
        (if false && isSpaceChar c then [] :: sentSplitS true false cs
         else consFirst c (sentSplitS false (isPunct c) cs)) from rfl]
      simp

theorem sentSplit_sj : ∀ (n : Nat) (l : List Char) (b : Bool), l.length ≤ n →
    SplitJoin (sentSplitS false b l) l := by
  intro n
  induction n with
  | zero =>
    intro l b hl
    have : l = [] := List.length_eq_zero.mp (Nat.le_zero.mp hl)
    subst this
    exact SplitJoin.single []
  | succ n ih =>
    intro l b hl
    match l with
    | [] => exact SplitJoin.single []
    | c :: cs =>
      have heq : sentSplitS false b (c :: cs) =
          (if b && isSpaceChar c then [] :: sentSplitS true false cs
           else consFirst c (sentSplitS false (isPunct c) cs)) := rfl
      by_cases hcond : (b && isSpaceChar c) = true
      · rw [heq, if_pos hcond, sentSplitS_true_eq]
        have hlen : (cs.dropWhile isSpaceChar).length ≤ n := by
          have := length_dropWhile_le isSpaceChar cs
          simp at hl
          omega
        have hsj := SplitJoin.cons [] (c :: cs.takeWhile isSpaceChar)
          (cs.dropWhile isSpaceChar) _ (by simp) (ih _ false hlen)
        have htext : ([] : List Char) ++ (c :: cs.takeWhile isSpaceChar) ++
            cs.dropWhile isSpaceChar = c :: cs := by
          simp [List.takeWhile_append_dropWhile]
        exact htext ▸ hsj
      · rw [heq, if_neg hcond]
        exact consFirst_sj (ih cs _ (by simp at hl; omega))

/-! ### Idempotence of strip -/

theorem dropWhile_head_not {p : Char → Bool} : ∀ {l : List Char} {c : Char}
    {rest : List Char}, List.dropWhile p l = c :: rest → p c = false := by
  intro l
  induction l with
  | nil => intro c rest h; simp at h
  | cons a as ih =>
    intro c rest h
    rw [List.dropWhile_cons] at h
    split at h
    · exact ih h
    · rename_i ha
      injection h with h1 _
      subst h1
      simpa using ha

theorem dropWhile_idem (p : Char → Bool) (l : List Char) :
    (l.dropWhile p).dropWhile p = l.dropWhile p := by
  cases hd : l.dropWhile p with
  | nil => rfl
  | cons c rest =>
    rw [List.dropWhile_cons, if_neg (by simp [dropWhile_head_not hd])]

theorem rstrip_idem (l : List Char) : rstrip (rstrip l) = rstrip l := by
  unfold rstrip
  rw [List.reverse_reverse, dropWhile_idem]

theorem strip_idem (l : List Char) : strip (strip l) = strip l := by
  have hl : lstrip (strip l) = strip l := by
    cases hy : strip l with
    | nil => rfl
    | cons c ys =>
      obtain ⟨b, hb⟩ := rstrip_decomp (lstrip l)
      have hcy : lstrip l = c :: (ys ++ b) := by
        have : strip l = rstrip (lstrip l) := rfl
        rw [this] at hy
        rw [hb, hy]
        simp
      have hpc : isSpaceChar c = false := by
        have hidem := dropWhile_idem isSpaceChar l
        have : lstrip (lstrip l) = lstrip l := hidem
        rw [hcy] at this
        exact dropWhile_head_not this
      show (c :: ys).dropWhile isSpaceChar = c :: ys
      rw [List.dropWhile_cons, if_neg (by simp [hpc])]
  calc strip (strip l) = rstrip (lstrip (strip l)) := rfl
    _ = rstrip (strip l) := by rw [hl]
    _ = rstrip (rstrip (lstrip l)) := rfl
    _ = rstrip (lstrip l) := rstrip_idem _
    _ = strip l := rfl

theorem splitBlank_inOrder (t : List Char) : InOrder (splitBlank t) t :=
  inOrder_of_sj (splitBlank_sj t.length t (Nat.le_refl _))

theorem splitHeading_inOrder (p : List Char) : InOrder (splitHeading p) p :=
  inOrder_of_sj (splitHeading_sj p.length p true (Nat.le_refl _))

theorem sentSplit_inOrder (t : List Char) : InOrder (sentSplit t) t :=
  inOrder_of_sj (sentSplit_sj t.length t false (Nat.le_refl _))

theorem inOrder_main (t : List Char) : InOrder (splitIntoClausesMain t) t := by
  show InOrder (((((splitBlank t).map strip).filter (fun p => p ≠ [])).map
    (fun p => ((splitHeading p).map strip).filter (fun s => s ≠ []))).flatten) t
  refine inOrder_flat _ (inOrder_strip_filter (splitBlank_inOrder t)) ?_
  intro p _
  exact inOrder_strip_filter (splitHeading_inOrder p)

theorem mem_main_blocks {t b : List Char} (hb : b ∈ splitIntoClausesMain t) :
    b ≠ [] ∧ strip b = b := by
  simp only [splitIntoClausesMain, List.mem_flatten, List.mem_map] at hb
  obtain ⟨L, ⟨p, hp, hL⟩, hbL⟩ := hb
  rw [← hL, List.mem_filter] at hbL
  obtain ⟨hmem, hne⟩ := hbL
  rw [List.mem_map] at hmem
  obtain ⟨s, _, hs⟩ := hmem
  refine ⟨by simpa using hne, ?_⟩
  rw [← hs, strip_idem]

theorem sentSplit_no_punct : ∀ (l : List Char), (∀ c ∈ l, isPunct c = false) →
    sentSplit l = [l] := by
  intro l
  induction l with
  | nil => intro _; rfl
  | cons c cs ih =>
    intro h
    have heq : sentSplit (c :: cs) = consFirst c (sentSplitS false (isPunct c) cs) := by
      show (if false && isSpaceChar c then [] :: sentSplitS true false cs
        else consFirst c (sentSplitS false (isPunct c) cs)) =
        consFirst c (sentSplitS false (isPunct c) cs)
      simp
    rw [heq, h c (by simp)]
    rw [show sentSplitS false false cs = sentSplit cs from rfl, ih
      (fun d hd => h d (by simp [hd]))]
    rfl

/-- Claim C4 (corrected): for every non-empty input text, the blocks the
Segmenter returns occur disjointly and in document order within the
text; and whenever the blank-line/heading path produced at least one
block, so that the sentence-split fallback is unused, every returned
block is non-empty and equal to its own strip, hence not
whitespace-only.  (The fallback path can return empty or
whitespace-only blocks.) -/
theorem claim_C4 (t : List Char) (h : t ≠ []) :
    InOrder (splitIntoClauses t) t ∧
    (splitIntoClausesMain t ≠ [] → ∀ b ∈ splitIntoClauses t, b ≠ [] ∧ strip b = b) := by
  constructor
  · unfold splitIntoClauses
    split
    · exact sentSplit_inOrder t
    · exact inOrder_main t
  · intro hmain b hb
    unfold splitIntoClauses at hb
    rw [if_neg hmain] at hb
    exact mem_main_blocks hb

/-- Claim C4 counterexample: the non-empty input of three spaces makes
the Segmenter fall back to sentence splitting and return a single block
that is whitespace-only. -/
theorem claim_C4_counterexample :
    ("   ".data ≠ []) ∧ splitIntoClauses "   ".data = ["   ".data] ∧
    strip "   ".data = [] := by decide

/-- Claim C4 witness at a concrete input. -/
theorem claim_C4_witness :
    ("ab".data ≠ []) ∧ InOrder (splitIntoClauses "ab".data) "ab".data ∧
    ("ab".data ≠ [] ∧ strip "ab".data = "ab".data) :=
  ⟨by decide, (claim_C4 "ab".data (by decide)).1,
   (claim_C4 "ab".data (by decide)).2 (by decide) "ab".data (by decide)⟩

/-- Claim C7 counterexample: on the empty string the Segmenter does not
return the empty sequence (a `re.split` result always has at least one
element). -/
theorem claim_C7_counterexample : splitIntoClauses "".data ≠ [] := by decide

/-- Claim C7 (corrected): for the empty input string the Segmenter
returns the one-element sequence containing the empty block, produced
by the sentence-split fallback. -/
theorem claim_C7 : splitIntoClauses "".data = [[]] := by decide

/-- Claim C8 (corrected): for every non-empty text without two
consecutive newlines and without sentence punctuation, IF the
blank-line/heading path yields zero blocks, then the sentence-split
fallback returns the whole text as a single block.  (The original claim
asserted that the blank-line path always yields zero blocks for such
texts, which is false: see the counterexample.) -/
theorem claim_C8 (t : List Char) (h1 : t ≠ [])
    (h2 : containsSub t ['\n', '\n'] = false)
    (h3 : ∀ c ∈ t, isPunct c = false)
    (h4 : splitIntoClausesMain t = []) :
    splitIntoClauses t = [t] := by
  unfold splitIntoClauses
  rw [if_pos h4]
  exact sentSplit_no_punct t h3

/-- Claim C8 counterexample: the text "hello" is non-empty, has no blank
lines and no sentence punctuation, yet the blank-line splitting path
yields one block, not zero, so the fallback is not triggered. -/
theorem claim_C8_counterexample :
    ("hello".data ≠ [] ∧ containsSub "hello".data ['\n', '\n'] = false ∧
      (∀ c ∈ "hello".data, isPunct c = false)) ∧
    splitIntoClausesMain "hello".data ≠ [] := by decide

/-- Claim C8 witness at a concrete input (a heading-only text, which the
blank-line/heading path reduces to zero blocks). -/
theorem claim_C8_witness :
    ("Ab:".data ≠ [] ∧ containsSub "Ab:".data ['\n', '\n'] = false ∧
      (∀ c ∈ "Ab:".data, isPunct c = false) ∧ splitIntoClausesMain "Ab:".data = []) ∧
    splitIntoClauses "Ab:".data = ["Ab:".data] :=
  ⟨⟨by decide, by decide, by decide, by decide⟩,
   claim_C8 "Ab:".data (by decide) (by decide) (by decide) (by decide)⟩

/-! ### Normalizer -/

theorem cleanTrue_eq : ∀ (l : List Char),
    cleanCharsS true l = cleanCharsS false (l.dropWhile (fun d => !isAsciiChar d)) := by
  intro l
  induction l with
  | nil => rfl
  | cons c cs ih =>
    by_cases hc : isAsciiChar c = true
    · rw [show cleanCharsS true (c :: cs) =
        (if isAsciiChar c then c :: cleanCharsS false cs else cleanCharsS true cs) from rfl,
        if_pos hc, List.dropWhile_cons, if_neg (by simp [hc])]
      rw [show cleanCharsS false (c :: cs) =
        (if isAsciiChar c then c :: cleanCharsS false cs
         else ' ' :: cleanCharsS true cs) from rfl, if_pos hc]
    · rw [show cleanCharsS true (c :: cs) =
        (if isAsciiChar c then c :: cleanCharsS false cs else cleanCharsS true cs) from rfl,
        if_neg hc, List.dropWhile_cons, if_pos (by simp [hc]), ih]

theorem cleanRel_clean : ∀ (n : Nat) (s : List Char), s.length ≤ n →
    CleanRel s (cleanCharsS false s) := by
  intro n
  induction n with
  | zero =>
    intro s hs
    have : s = [] := List.length_eq_zero.mp (Nat.le_zero.mp hs)
    subst this
    exact CleanRel.nil
  | succ n ih =>
    intro s hs
    match s with
    | [] => exact CleanRel.nil
    | c :: cs =>
      by_cases hc : isAsciiChar c = true
      · rw [show cleanCharsS false (c :: cs) =
          (if isAsciiChar c then c :: cleanCharsS false cs
           else ' ' :: cleanCharsS true cs) from rfl, if_pos hc]
        exact CleanRel.keep c cs _ hc (ih cs (by simp at hs; omega))
      · rw [show cleanCharsS false (c :: cs) =
          (if isAsciiChar c then c :: cleanCharsS false cs
           else ' ' :: cleanCharsS true cs) from rfl, if_neg hc, cleanTrue_eq]
        have hdec : c :: cs =
            (c :: cs.takeWhile (fun d => !isAsciiChar d)) ++
              cs.dropWhile (fun d => !isAsciiChar d) := by
          simp [List.takeWhile_append_dropWhile]
        have hrel := ih (cs.dropWhile (fun d => !isAsciiChar d))
          (by have := length_dropWhile_le (fun d => !isAsciiChar d) cs; simp at hs; omega)
        have hrun := CleanRel.run (c :: cs.takeWhile (fun d => !isAsciiChar d))
          (cs.dropWhile (fun d => !isAsciiChar d)) _ (by simp)
          (by
            intro d hd
            rcases List.mem_cons.mp hd with h1 | h1
            · subst h1; simpa using hc
            · have := List.mem_takeWhile_imp h1
              simpa using this)
          (by
            intro d hd
            cases hx : cs.dropWhile (fun d => !isAsciiChar d) with
            | nil => rw [hx] at hd; simp at hd
            | cons e rest =>
              rw [hx] at hd
              simp at hd
              subst hd
              have := dropWhile_head_not hx
              simpa using this)
          hrel
        exact hdec ▸ hrun

theorem cleanChars_ascii : ∀ (s : List Char) (b : Bool), ∀ c ∈ cleanCharsS b s,
    c.toNat ≤ 127 := by
  intro s
  induction s with
  | nil => intro b c hc; simp [cleanCharsS] at hc
  | cons a as ih =>
    intro b c hc
    by_cases ha : isAsciiChar a = true
    · rw [show cleanCharsS b (a :: as) =
        (if isAsciiChar a then a :: cleanCharsS false as
         else if b then cleanCharsS true as else ' ' :: cleanCharsS true as) from rfl,
        if_pos ha] at hc
      rcases List.mem_cons.mp hc with h1 | h1
      · subst h1; simpa [isAsciiChar] using ha
      · exact ih false c h1
    · rw [show cleanCharsS b (a :: as) =
        (if isAsciiChar a then a :: cleanCharsS false as
         else if b then cleanCharsS true as else ' ' :: cleanCharsS true as) from rfl,
        if_neg ha] at hc
      split at hc
      · exact ih true c hc
      · rcases List.mem_cons.mp hc with h1 | h1
        · subst h1; decide
        · exact ih true c h1

/-- Claim C5 (corrected): the Normalizer is a total function, maps the
empty string to the empty string, replaces every maximal run of
non-ASCII characters with exactly one space, and its output contains
only ASCII characters (code point at most 127).  The original claim
said printable ASCII, but the output retains non-printable ASCII
control characters such as the newline. -/
theorem claim_C5 (s : List Char) :
    (∀ c ∈ cleanChars s, c.toNat ≤ 127) ∧ CleanRel s (cleanChars s) ∧
    cleanChars [] = [] :=
  ⟨cleanChars_ascii s false, cleanRel_clean s.length s (Nat.le_refl _), rfl⟩

/-- Claim C5 counterexample: the output of the Normalizer on "a\nb"
contains the newline character, which is outside the printable ASCII
range 32..126. -/
theorem claim_C5_counterexample :
    ∃ c ∈ cleanChars "a\nb".data, ¬(32 ≤ c.toNat ∧ c.toNat ≤ 126) :=
  ⟨'\n', by decide, by decide⟩

/-- Claim C5 witness at a concrete input. -/
theorem claim_C5_witness :
    ('a'.toNat ≤ 127) ∧ CleanRel "aé".data (cleanChars "aé".data) :=
  ⟨(claim_C5 "aé".data).1 'a' (by decide), (claim_C5 "aé".data).2.1⟩

/-! ### Classifier -/

theorem enum_fst_lt {α : Type} (l : List α) :
    List.Pairwise (fun a b : Nat × α => a.1 < b.1) l.enum := by
  have h1 : List.Pairwise (fun a b : Nat => a < b) (l.enum.map Prod.fst) := by
    rw [List.enum_map_fst]
    exact List.pairwise_lt_range _
  exact (List.pairwise_map).mp h1

/-- Claim C6 (confirmed): every entry of the Classifier output has a
category from the fixed 15-category list, a non-empty match list, and
matches listed in strictly increasing block-index order. -/
theorem claim_C6 (clauses : List (List Char)) :
    ∀ p ∈ findKeyClauses clauses, p.1 ∈ KEY_CLAUSES ∧ p.2 ≠ [] ∧
      List.Pairwise (fun a b : Nat × List Char => a.1 < b.1) p.2 := by
  intro p hp
  simp only [findKeyClauses, List.mem_filterMap] at hp
  obtain ⟨key, hkey, hsome⟩ := hp
  split at hsome
  · simp at hsome
  · rename_i hne
    injection hsome with hsome
    subst hsome
    refine ⟨hkey, hne, ?_⟩
    exact (enum_fst_lt clauses).sublist (List.filter_sublist _)

/-- Claim C6 witness at a concrete input. -/
theorem claim_C6_witness :
    ("payment".data ∈ KEY_CLAUSES ∧ [((0 : Nat), "payment due".data)] ≠ [] ∧
      List.Pairwise (fun a b : Nat × List Char => a.1 < b.1)
        [((0 : Nat), "payment due".data)]) :=
  claim_C6 ["payment due".data] ("payment".data, [((0 : Nat), "payment due".data)])
    (by decide)

/-- Claim C1 (corrected): the Segmenter yields exactly the two
heading-stripped blocks claimed, but the Classifier finds no category
at all: the category words occurred only inside the headings, which the
Segmenter discarded, so the mapping is empty instead of mapping
confidentiality and termination to the two blocks. -/
theorem claim_C1 :
    splitIntoClauses scenarioA =
      ["Both parties agree to keep terms secret.".data,
       "Either party may terminate with 30 days notice.".data] ∧
    findKeyClauses (splitIntoClauses scenarioA) = [] := by
  constructor
  · decide
  · decide

/-- Claim C1 counterexample: on scenario A the Classifier maps the
category "confidentiality" to nothing at all. -/
theorem claim_C1_counterexample :
    (findKeyClauses (splitIntoClauses scenarioA)).lookup "confidentiality".data = none := by
  decide

/-! ### Risk scorer -/

theorem kwFold_score (ct lvl : List Char) : ∀ (kws : List (List Char))
    (acc : Nat × List (List Char)),
    (kws.foldl (kwStep ct lvl) acc).1 =
      acc.1 + (kws.map (fun kw => if containsSub ct kw then tierWeight lvl else 0)).sum := by
  intro kws
  induction kws with
  | nil => intro acc; simp
  | cons kw kws ih =>
    intro acc
    rw [List.foldl_cons, ih]
    by_cases h : containsSub ct kw = true
    · rw [show kwStep ct lvl acc kw =
        (acc.1 + tierWeight lvl, acc.2 ++ [reasonStr lvl kw]) from by
          unfold kwStep; rw [if_pos h]]
      simp [h]
      omega
    · rw [show kwStep ct lvl acc kw = acc from by unfold kwStep; rw [if_neg h]]
      simp [h]

theorem riskFold_score (ct : List Char) : ∀ (tiers : List (List Char × List (List Char)))
    (acc : Nat × List (List Char)),
    (tiers.foldl (fun a p => p.2.foldl (kwStep ct p.1) a) acc).1 =
      acc.1 + ((tiers.flatMap (fun p => p.2.map (fun kw => (kw, tierWeight p.1)))).map
        (fun q => if containsSub ct q.1 then q.2 else 0)).sum := by
  intro tiers
  induction tiers with
  | nil => intro acc; simp
  | cons p tiers ih =>
    intro acc
    rw [List.foldl_cons, ih, kwFold_score]
    simp [List.map_map, Function.comp_def]
    omega

theorem riskScan_eq (ct : List Char) : (riskScan ct).1 = specCatScore ct := by
  unfold riskScan specCatScore keywordWeights
  rw [riskFold_score]
  simp

theorem analyzeFold : ∀ (found : List (List Char × List (Nat × List Char)))
    (acc : List (List Char × ReportVal) × Nat),
    found.foldl analyzeStep acc =
      (acc.1 ++ found.map (fun p =>
        (p.1, ReportVal.entry ⟨(riskScan (lowerList (joinSpace (p.2.map Prod.snd)))).1,
          ((riskScan (lowerList (joinSpace (p.2.map Prod.snd)))).2).dedup,
          joinSpace (p.2.map Prod.snd)⟩)),
       acc.2 + (found.map
        (fun p => (riskScan (lowerList (joinSpace (p.2.map Prod.snd)))).1)).sum) := by
  intro found
  induction found with
  | nil => intro acc; simp
  | cons p found ih =>
    intro acc
    rw [List.foldl_cons, ih]
    unfold analyzeStep
    simp
    omega

/-- Full characterization of `analyze_risks`: the report is the list of
per-category entries (in input order, scored by `specCatScore`),
followed by the pair of the extra key and the summed overall score. -/
theorem analyzeRisks_eq (found : List (List Char × List (Nat × List Char))) :
    analyzeRisks found =
      found.map (fun p =>
        (p.1, ReportVal.entry ⟨specCatScore (lowerList (joinSpace (p.2.map Prod.snd))),
          ((riskScan (lowerList (joinSpace (p.2.map Prod.snd)))).2).dedup,
          joinSpace (p.2.map Prod.snd)⟩)) ++
      [(overallKey, ReportVal.overall
        ((found.map
          (fun p => specCatScore (lowerList (joinSpace (p.2.map Prod.snd))))).sum))] := by
  unfold analyzeRisks
  rw [analyzeFold]
  simp [riskScan_eq]

/-- Claim C2 (confirmed): each category of the report receives a score
equal to the sum, over the fixed risk keywords, of the tier weight
(high 3, medium 2, low 1) counted exactly once per keyword that occurs
as a substring of the lower-cased space-joined matched texts —
independent of how many times a keyword occurs, since the score is the
weighted sum of presence indicators — and the overall score is the sum
of the per-category scores. -/
theorem claim_C2 (found : List (List Char × List (Nat × List Char))) :
    analyzeRisks found =
      found.map (fun p =>
        (p.1, ReportVal.entry ⟨specCatScore (lowerList (joinSpace (p.2.map Prod.snd))),
          ((riskScan (lowerList (joinSpace (p.2.map Prod.snd)))).2).dedup,
          joinSpace (p.2.map Prod.snd)⟩)) ++
      [(overallKey, ReportVal.overall
        ((found.map
          (fun p => specCatScore (lowerList (joinSpace (p.2.map Prod.snd))))).sum))] :=
  analyzeRisks_eq found

/-- Claim C10 (confirmed): the report of `analyze_risks` is one single
mapping whose keys are the input categories followed by the single
extra key `overall_risk_score` bound to the aggregate score; every
other key carries a `RiskEntry`; and when the input keys all come from
the fixed category list, exactly one key of the report is not a
category name. -/
theorem claim_C10 (found : List (List Char × List (Nat × List Char)))
    (h : ∀ k ∈ found.map Prod.fst, k ∈ KEY_CLAUSES) :
    (analyzeRisks found).map Prod.fst = found.map Prod.fst ++ [overallKey] ∧
    (overallKey, ReportVal.overall
      ((found.map
        (fun p => specCatScore (lowerList (joinSpace (p.2.map Prod.snd))))).sum))
      ∈ analyzeRisks found ∧
    ((analyzeRisks found).map Prod.fst).countP (fun k => !decide (k ∈ KEY_CLAUSES)) = 1 ∧
    (∀ q ∈ analyzeRisks found, q.1 ≠ overallKey → ∃ e, q.2 = ReportVal.entry e) := by
  have hkeys : (analyzeRisks found).map Prod.fst = found.map Prod.fst ++ [overallKey] := by
    rw [analyzeRisks_eq]
    simp
  refine ⟨hkeys, ?_, ?_, ?_⟩
  · rw [analyzeRisks_eq]
    exact List.mem_append_right _ (by simp)
  · rw [hkeys, List.countP_append]
    have h0 : (found.map Prod.fst).countP (fun k => !decide (k ∈ KEY_CLAUSES)) = 0 := by
      rw [List.countP_eq_zero]
      intro k hk
      simp [h k hk]
    rw [h0]
    simp [overallKey, KEY_CLAUSES]
  · intro q hq hq1
    rw [analyzeRisks_eq] at hq
    rcases List.mem_append.mp hq with h1 | h1
    · rw [List.mem_map] at h1
      obtain ⟨p, _, hpq⟩ := h1
      exact ⟨_, by rw [← hpq]⟩
    · simp at h1
      exact absurd (by rw [h1]) hq1

/-- Claim C10 witness at a concrete input. -/
theorem claim_C10_witness :
    (analyzeRisks [("payment".data, [((0 : Nat), "payment due".data)])]).map Prod.fst =
      [("payment".data, [((0 : Nat), "payment due".data)])].map Prod.fst ++ [overallKey] ∧
    (overallKey, ReportVal.overall
      (([("payment".data, [((0 : Nat), "payment due".data)])].map
        (fun p => specCatScore (lowerList (joinSpace (p.2.map Prod.snd))))).sum))
      ∈ analyzeRisks [("payment".data, [((0 : Nat), "payment due".data)])] ∧
    ((analyzeRisks [("payment".data, [((0 : Nat), "payment due".data)])]).map
      Prod.fst).countP (fun k => !decide (k ∈ KEY_CLAUSES)) = 1 ∧
    (∀ q ∈ analyzeRisks [("payment".data, [((0 : Nat), "payment due".data)])],
      q.1 ≠ overallKey → ∃ e, q.2 = ReportVal.entry e) :=
  claim_C10 [("payment".data, [((0 : Nat), "payment due".data)])] (by decide)

/-! ### Summarizer -/

theorem lexInsert_map_snd (x : Nat × Nat × List Char) :
    ∀ (l : List (Nat × Nat × List Char)), (∀ y ∈ l, x.1 < y.1) →
    (lexInsert x l).map Prod.snd = insertDesc x.2 (l.map Prod.snd) := by
  intro l
  induction l with
  | nil => intro _; rfl
  | cons y ys ih =>
    intro h
    have hxy : x.1 < y.1 := h y (by simp)
    by_cases hs : x.2.1 < y.2.1
    · rw [show lexInsert x (y :: ys) =
        (if x.2.1 < y.2.1 ∨ (x.2.1 = y.2.1 ∧ y.1 < x.1) then y :: lexInsert x ys
         else x :: y :: ys) from rfl, if_pos (Or.inl hs)]
      rw [show insertDesc x.2 ((y :: ys).map Prod.snd) =
        (if x.2.1 < (y.2).1 then y.2 :: insertDesc x.2 (ys.map Prod.snd)
         else x.2 :: y.2 :: ys.map Prod.snd) from rfl, if_pos hs]
      rw [List.map_cons, ih (fun z hz => h z (by simp [hz]))]
    · have hcond : ¬(x.2.1 < y.2.1 ∨ (x.2.1 = y.2.1 ∧ y.1 < x.1)) := by
        push_neg
        exact ⟨Nat.le_of_not_lt hs, fun _ => Nat.le_of_lt hxy⟩
      rw [show lexInsert x (y :: ys) =
        (if x.2.1 < y.2.1 ∨ (x.2.1 = y.2.1 ∧ y.1 < x.1) then y :: lexInsert x ys
         else x :: y :: ys) from rfl, if_neg hcond]
      rw [show insertDesc x.2 ((y :: ys).map Prod.snd) =
        (if x.2.1 < (y.2).1 then y.2 :: insertDesc x.2 (ys.map Prod.snd)
         else x.2 :: y.2 :: ys.map Prod.snd) from rfl, if_neg hs]
      rfl

theorem mem_lexInsert {x : Nat × Nat × List Char} : ∀ {l : List (Nat × Nat × List Char)}
    {y : Nat × Nat × List Char}, y ∈ lexInsert x l → y = x ∨ y ∈ l := by
  intro l
  induction l with
  | nil =>
    intro y hy
    rw [show lexInsert x [] = [x] from rfl] at hy
    simp at hy
    exact Or.inl hy
  | cons z zs ih =>
    intro y hy
    rw [show lexInsert x (z :: zs) =
      (if x.2.1 < z.2.1 ∨ (x.2.1 = z.2.1 ∧ z.1 < x.1) then z :: lexInsert x zs
       else x :: z :: zs) from rfl] at hy
    split at hy
    · rcases List.mem_cons.mp hy with h1 | h1
      · exact Or.inr (by simp [h1])
      · rcases ih h1 with h2 | h2
        · exact Or.inl h2
        · exact Or.inr (by simp [h2])
    · rcases List.mem_cons.mp hy with h1 | h1
      · exact Or.inl h1
      · exact Or.inr h1

theorem mem_lexSort : ∀ {l : List (Nat × Nat × List Char)} {y : Nat × Nat × List Char},
    y ∈ lexSort l → y ∈ l := by
  intro l
  induction l with
  | nil => intro y hy; exact hy
  | cons x xs ih =>
    intro y hy
    rw [show lexSort (x :: xs) = lexInsert x (lexSort xs) from rfl] at hy
    rcases mem_lexInsert hy with h1 | h1
    · simp [h1]
    · simp [ih h1]

theorem lexSort_map_snd : ∀ (l : List (Nat × Nat × List Char)),
    List.Pairwise (fun a b : Nat × Nat × List Char => a.1 < b.1) l →
    (lexSort l).map Prod.snd = sortDesc (l.map Prod.snd) := by
  intro l
  induction l with
  | nil => intro _; rfl
  | cons x xs ih =>
    intro hp
    rw [List.pairwise_cons] at hp
    obtain ⟨hx, hxs⟩ := hp
    rw [show lexSort (x :: xs) = lexInsert x (lexSort xs) from rfl,
      lexInsert_map_snd x _ (fun y hy => hx y (mem_lexSort hy)), ih hxs]
    rfl

/-- Claim C3 (confirmed): when the text splits into at most N sentences
the Summarizer returns all sentences joined by single spaces in
document order; when it splits into more than N, the result is the
first N elements of the stable descending sort by score (score
descending, ties broken by smaller original index first), joined in
that score order rather than restored to document order. -/
theorem claim_C3 (text : List Char) (n : Nat) (hn : 0 < n) :
    ((sentSplit text).length ≤ n → simpleSummary text n = joinSpace (sentSplit text)) ∧
    (n < (sentSplit text).length → simpleSummary text n =
      joinSpace (((lexSort (sentenceScores text).enum).take n).map (fun x => x.2.2))) := by
  constructor
  · intro h
    unfold simpleSummary
    rw [if_pos h]
  · intro h
    unfold simpleSummary
    rw [if_neg (by omega)]
    congr 1
    have h1 : (lexSort (sentenceScores text).enum).map Prod.snd =
        sortDesc ((sentenceScores text).enum.map Prod.snd) :=
      lexSort_map_snd _ (enum_fst_lt _)
    rw [List.enum_map_snd] at h1
    have h2 : (((lexSort (sentenceScores text).enum).take n).map (fun x => x.2.2)) =
        ((lexSort (sentenceScores text).enum).take n).map (Prod.snd ∘ Prod.snd) := rfl
    have h3 : (List.take n (lexSort (sentenceScores text).enum)).map Prod.snd =
        List.take n (sortDesc (sentenceScores text)) := by
      rw [List.map_take, h1]
    rw [h2, ← List.map_map, h3]

/-- Claim C3 witness at a concrete input. -/
theorem claim_C3_witness :
    (0 < 2 ∧ 2 < (sentSplit summaryWitnessText).length) ∧
    simpleSummary summaryWitnessText 2 =
      joinSpace (((lexSort (sentenceScores summaryWitnessText).enum).take 2).map
        (fun x => x.2.2)) :=
  ⟨⟨by decide, by decide⟩, (claim_C3 summaryWitnessText 2 (by decide)).2 (by decide)⟩

/-! ### External summarizer fallback -/

/-- Claim C9 (confirmed): `hf_summarize` never surfaces an error.  When
the pipeline is unavailable, when its construction fails, or when
invoking it fails, the result is the extractive fallback
`simple_summary(text)` (with its default of 5 sentences); only a
successful invocation returns the pipeline output. -/
theorem claim_C9 (S : Type) (avail : Bool) (cached : Option S)
    (ini : Except Unit S) (run : S → Except Unit (List Char)) (text : List Char) :
    (avail = false → (hfSummarize S avail cached ini run text).1 = simpleSummary text 5) ∧
    (cached = none → ini = Except.error () →
      (hfSummarize S avail cached ini run text).1 = simpleSummary text 5) ∧
    (∀ s, cached = none → ini = Except.ok s → run s = Except.error () →
      (hfSummarize S avail cached ini run text).1 = simpleSummary text 5) ∧
    (∀ s, cached = some s → run s = Except.error () →
      (hfSummarize S avail cached ini run text).1 = simpleSummary text 5) ∧
    (∀ s out, avail = true → (cached = some s ∨ (cached = none ∧ ini = Except.ok s)) →
      run s = Except.ok out → (hfSummarize S avail cached ini run text).1 = out) := by
  refine ⟨?_, ?_, ?_, ?_, ?_⟩
  · intro ha
    subst ha
    rfl
  · intro hc hi
    subst hc
    subst hi
    cases avail <;> rfl
  · intro s hc hi hr
    subst hc
    subst hi
    cases avail
    · rfl
    · simp [hfSummarize, hr]
  · intro s hc hr
    subst hc
    cases avail
    · rfl
    · simp [hfSummarize, hr]
  · intro s out ha hco hr
    subst ha
    rcases hco with hc | ⟨hc, hi⟩
    · subst hc
      simp [hfSummarize, hr]
    · subst hc
      subst hi
      simp [hfSummarize, hr]

/-- Claim C9 witness at a concrete instantiation. -/
theorem claim_C9_witness :
    (hfSummarize Unit false none (Except.error ()) (fun _ => Except.error ())
      "x".data).1 = simpleSummary "x".data 5 :=
  (claim_C9 Unit false none (Except.error ()) (fun _ => Except.error ()) "x".data).1 rfl

end LegalContract
